import Mathlib

/-!
Verification development for the arxivdigest backend (src/backend).

The Python code is shallowly embedded: pure string manipulation is
translated to structural recursion over lists of characters, the
asynchronous pipeline becomes explicit state passing (the Mongo
collection is a list of records threaded through each step, the
per-category in-progress map is a function from category codes to
booleans), and every external call (arXiv fetch, OpenAI ranking and
enrichment, Mongo persistence) is a parameter describing its outcome,
with `none` or a dedicated constructor standing for a raised exception
that the surrounding `try`/`except` in the source catches.
-/

/-! ### Character level utilities

Python `str.strip()` / `\s` whitespace (ASCII part, which is all the
code ever meets in its own separators). -/

def pyIsSpace (c : Char) : Bool :=
  c = ' ' || c = '\t' || c = '\n' || c = '\r' || c = '\x0b' || c = '\x0c'

/-- Python `str.strip()` on a list of characters. -/
def pyStripChars (l : List Char) : List Char :=
  ((l.dropWhile pyIsSpace).reverse.dropWhile pyIsSpace).reverse

/-- Python str.split with a newline separator: split on every newline;
the empty string yields one empty field, as in Python. -/
def splitNl : List Char → List (List Char)
  | [] => [[]]
  | c :: cs =>
    if c = '\n' then [] :: splitNl cs
    else
      match splitNl cs with
      | [] => [[c]]
      | g :: gs => (c :: g) :: gs

/-- Worker for splitOnSep. Each recursive call consumes at least one
character, so fuel equal to the input length always suffices; fuel is
structural, which keeps the function kernel-reducible. -/
def splitOnSepAux (sep : List Char) : Nat → List Char → List (List Char)
  | _, [] => [[]]
  | 0, l => [l]
  | fuel + 1, c :: cs =>
    if sep ≠ [] ∧ sep.isPrefixOf (c :: cs) then
      [] :: splitOnSepAux sep fuel ((c :: cs).drop sep.length)
    else
      match splitOnSepAux sep fuel cs with
      | [] => [[c]]
      | g :: gs => (c :: g) :: gs

/-- Python `str.split(sep)` for a non-empty separator: leftmost,
non-overlapping occurrences. An empty separator never occurs in the
source (the separators are "Score: " and " -"). -/
def splitOnSep (sep l : List Char) : List (List Char) :=
  splitOnSepAux sep l.length l

def digitsToNat (l : List Char) : Nat :=
  l.foldl (fun n c => 10 * n + (c.toNat - '0'.toNat)) 0

def allDigits (l : List Char) : Bool :=
  l.all (fun c => '0' ≤ c && c ≤ '9')

/-- Python `int(s)` on a string: optional surrounding whitespace, an
optional sign, then at least one digit; anything else raises
(modelled as `none`). -/
def pyInt (s : List Char) : Option Int :=
  match pyStripChars s with
  | '+' :: r => if r ≠ [] ∧ allDigits r then some (Int.ofNat (digitsToNat r)) else none
  | '-' :: r => if r ≠ [] ∧ allDigits r then some (-(Int.ofNat (digitsToNat r))) else none
  | t => if t ≠ [] ∧ allDigits t then some (Int.ofNat (digitsToNat t)) else none

/-! ### llm.py, LLMSummarizer.score_papers_by_title -/

/-- One iteration of the parsing loop in score_papers_by_title:
`int(score_text.split(sep1)[1].split(sep2)[0])` where sep1 is
"Score: " and sep2 is " -", with the bare
`except` turning any failure (missing index or non-integer text) into
the neutral default score 5. -/
def parseScoreLine (line : List Char) : Int :=
  match (splitOnSep "Score: ".data line)[1]? with
  | none => 5
  | some rest =>
    match pyInt ((splitOnSep " -".data rest).headD []) with
    | none => 5
    | some v => v

/-- The enumerate loop building `scores`: one (score, line-index) pair
per line of the response text, starting at index `k`. -/
def mkScoresAux (k : Nat) : List (List Char) → List (Int × Nat)
  | [] => []
  | l :: ls => (parseScoreLine l, k) :: mkScoresAux (k + 1) ls

def mkScores (lines : List (List Char)) : List (Int × Nat) :=
  mkScoresAux 0 lines

/-- The response content after strip and split on newlines. -/
def linesOf (resp : String) : List (List Char) :=
  splitNl (pyStripChars resp.data)

/-- The order realised by `scores.sort(reverse=True)` on (score, index)
pairs: descending lexicographic comparison, so a higher score comes
first and, for equal scores, the higher index comes first. -/
def scoreRel (a b : Int × Nat) : Prop :=
  b.1 < a.1 ∨ (a.1 = b.1 ∧ b.2 ≤ a.2)

instance : DecidableRel scoreRel := fun a b => by
  unfold scoreRel; exact inferInstance

instance : IsTotal (Int × Nat) scoreRel :=
  ⟨by intro a b; unfold scoreRel; omega⟩

instance : IsTrans (Int × Nat) scoreRel :=
  ⟨by intro a b c; unfold scoreRel; omega⟩

/-- The sorted score list used for selection. -/
def sortedScores (resp : String) : List (Int × Nat) :=
  List.insertionSort scoreRel (mkScores (linesOf resp))

/-- `selected_indices = [titles_with_ids[idx][0] for score, idx in scores[:top_k]]`;
since `titles_with_ids[i] = (i, title_i)`, the selected indices are the
index components of the first top_k sorted pairs. -/
def selectedIndices (resp : String) (topK : Nat) : List Nat :=
  ((sortedScores resp).take topK).map Prod.snd

/-- An arXiv result object as used by this pipeline: `entry_id` may be
absent (the code guards with hasattr) and the title is a string. -/
structure Paper where
  entry_id : Option String
  title : String
deriving Repr, DecidableEq, Inhabited

/-- llm.py score_papers_by_title. The ranking oracle outcome is a
parameter: `none` models the OpenAI call raising (network failure),
`some resp` a returned message content. A selected line index that is
out of range for `titles_with_ids` raises IndexError, which the outer
`except` turns into the `papers[:top_k]` fallback. -/
def scorePapersByTitle (papers : List Paper) (topK : Nat)
    (oracle : Option String) : List Paper :=
  if papers.isEmpty then []
  else
    match oracle with
    | none => papers.take topK
    | some resp =>
      let sel := selectedIndices resp topK
      if sel.all (fun i => decide (i < papers.length)) then
        sel.map (fun i => papers.getD i default)
      else
        papers.take topK

/-! ### main.py, slugify -/

/-- Characters kept by the substitution dropping [^a-z0-9\-]. -/
def slugChar (c : Char) : Bool :=
  ('a' ≤ c && c ≤ 'z') || ('0' ≤ c && c ≤ '9') || c = '-'

mutual
/-- The whitespace-run substitution: each maximal whitespace run
becomes one hyphen. -/
def subWsRuns : List Char → List Char
  | [] => []
  | c :: cs => if pyIsSpace c then '-' :: skipWs cs else c :: subWsRuns cs

def skipWs : List Char → List Char
  | [] => []
  | c :: cs => if pyIsSpace c then skipWs cs else c :: subWsRuns cs
end

mutual
/-- The hyphen-run substitution: each maximal hyphen run becomes one
hyphen. -/
def collapseHyphens : List Char → List Char
  | [] => []
  | c :: cs => if c = '-' then '-' :: skipHyphens cs else c :: collapseHyphens cs

def skipHyphens : List Char → List Char
  | [] => []
  | c :: cs => if c = '-' then skipHyphens cs else c :: collapseHyphens cs
end

/-- Python str.strip with a hyphen argument. -/
def stripHyphens (l : List Char) : List Char :=
  ((l.dropWhile (· = '-')).reverse.dropWhile (· = '-')).reverse

/-- main.py slugify: lowercase, whitespace runs to hyphens, drop every
character outside [a-z0-9-], collapse hyphen runs, trim hyphens. -/
def slugify (s : String) : String :=
  String.mk (stripHyphens (collapseHyphens
    ((subWsRuns (s.data.map Char.toLower)).filter slugChar)))


/-! ### main.py data model: the Mongo paper_details collection

A stored document keeps the fields of paper_detail_doc that the claims
mention; the wall-clock fields (generation_date, processing_time) and
the pdf artifact fields are irrelevant to every claim and carry no
information for the embedding, so they are not tracked. -/

structure Record where
  title : String
  slug : String
  authors : String
  category_code : String
  category_name : String
  category_slug : String
  arxiv_id : String
  url : String
  summary_sections : String
  processed_date : String
deriving Repr, DecidableEq

/-- The result dict of llm.py detailed_paper_summary, as read by
process_and_save_paper. The arxiv_id is the entry_id when present. -/
structure Summary where
  title : String
  authors : String
  arxiv_id : Option String
  url : String
  detailed_summary : String
deriving Repr, DecidableEq

/-- Outcome of the external calls of one item worker: the enrichment call
raised somewhere before persistence, or it returned a summary and the
subsequent update_one either succeeds or raises. -/
inductive ItemOutcome
  | raised
  | persistFail (s : Summary)
  | ok (s : Summary)
deriving DecidableEq

/-- Mongo `update_one({"arxiv_id": id}, {"$set": doc}, upsert=True)`:
replace the first document with that arxiv_id, or append when none
matches. Never an unconditional insert. -/
def upsert : List Record → Record → List Record
  | [], r => [r]
  | x :: xs, r => if x.arxiv_id = r.arxiv_id then r :: xs else x :: upsert xs r

/-- The id projection query in process_category: every stored document
whose arxiv_id field is truthy (a non-empty string). -/
def existingIds (store : List Record) : List String :=
  store.filterMap (fun r => if r.arxiv_id = "" then none else some r.arxiv_id)

/-- The dedup filter in process_category: keep papers that have an
entry_id attribute and whose entry_id is not among the stored ids. -/
def newPapersOf (store : List Record) (papers : List Paper) : List Paper :=
  papers.filter (fun p =>
    p.entry_id.isSome && !(decide (p.entry_id.getD "" ∈ existingIds store)))

/-- The per-category in-progress map generation_in_progress, with
`.get(cat, False)` read semantics. -/
def Flags : Type := String → Bool

def setFlag (f : Flags) (k : String) (b : Bool) : Flags :=
  fun x => if x = k then b else f x

/-- main.py process_and_save_paper: enrich one paper, skip empty or
untitled summaries and summaries without a truthy arxiv_id, upsert the
built document keyed by arxiv_id, return the document; any exception is
caught and turns into None with the store unchanged. -/
def process_and_save_paper (cat catName catSlug date : String)
    (outcome : Paper → ItemOutcome) (store : List Record) (p : Paper) :
    Option Record × List Record :=
  match outcome p with
  | .raised => (none, store)
  | .persistFail _ => (none, store)
  | .ok s =>
    if s.title = "" then (none, store)
    else
      match s.arxiv_id with
      | none => (none, store)
      | some aid =>
        if aid = "" then (none, store)
        else
          let r : Record :=
            ⟨s.title, slugify s.title, s.authors, cat, catName, catSlug,
              aid, s.url, s.detailed_summary, date⟩
          (some r, upsert store r)

/-- The `asyncio.gather` over process_and_save_paper tasks: one result
slot per selected paper, store effects threaded through. -/
def runWorkers (cat catName catSlug date : String)
    (outcome : Paper → ItemOutcome) :
    List Record → List Paper → List (Option Record) × List Record
  | store, [] => ([], store)
  | store, p :: ps =>
    let (r, store1) := process_and_save_paper cat catName catSlug date outcome store p
    let (rs, store2) := runWorkers cat catName catSlug date outcome store1 ps
    (r :: rs, store2)

/-- The fixed category table of arxiv.py ArxivFetcher. -/
def categoriesList : List (String × String) :=
  [("cs.LG", "Machine Learning"), ("cs.CL", "Natural Language Processing"),
   ("cs.CV", "Computer Vision"), ("stat.ML", "Statistical ML"),
   ("quant-ph", "Quantum Physics"), ("nucl-th", "Nuclear Theory"),
   ("nucl-ex", "Nuclear Experiment"), ("cond-mat.mtrl-sci", "Materials Science"),
   ("astro-ph.GA", "Galaxy Astrophysics"), ("q-bio.NC", "Neurons & Cognition"),
   ("cs.CR", "Crypto & Security")]

/-- arxiv.py get_category_name: dict .get with default. -/
def get_category_name (code : String) : String :=
  ((categoriesList.find? (fun kv => kv.1 == code)).map Prod.snd).getD
    "Unknown Category"

/-- External-world outcomes of one process_category run: the ranking
oracle response (none models the OpenAI call raising), the per-item
enrichment and persistence outcomes, and whether the body raised
outside those calls (modelled at the earliest raise site; the
surrounding except returns an empty list and the finally clause still
clears the flag). -/
structure CatRunEnv where
  oracleResp : Option String
  outcome : Paper → ItemOutcome
  crash : Bool

/-- main.py process_category: dedup against the store, rank, select,
fan out the item workers, aggregate the non-None results; every exit
path (including the except branch modelled by crash) runs the finally
clause clearing the in-progress flag for this category. -/
def process_category (cat : String) (papers : List Paper) (env : CatRunEnv)
    (date : String) (maxPapers : Nat) (store : List Record) (flags : Flags) :
    List Record × List Record × Flags :=
  let flagsOut := setFlag flags cat false
  if env.crash then ([], store, flagsOut)
  else
    let catName := get_category_name cat
    let catSlug := slugify catName
    if papers.isEmpty then ([], store, flagsOut)
    else
      let newPapers := newPapersOf store papers
      if newPapers.isEmpty then ([], store, flagsOut)
      else
        let selected := scorePapersByTitle newPapers maxPapers env.oracleResp
        let (results, store2) := runWorkers cat catName catSlug date env.outcome store selected
        (results.filterMap id, store2, flagsOut)

/-- main.py process_category_with_semaphore: set the flag, run the
processor (whose own except returns [] on a raise), and clear the flag
again in the finally clause. -/
def process_category_with_semaphore (cat : String) (papers : List Paper)
    (env : CatRunEnv) (date : String) (maxPapers : Nat)
    (store : List Record) (flags : Flags) :
    List Record × List Record × Flags :=
  let flags1 := setFlag flags cat true
  let (res, store2, flags2) := process_category cat papers env date maxPapers store flags1
  (res, store2, setFlag flags2 cat false)

/-- One category as seen by the orchestrator run: its code, the outcome
of fetch_papers_by_category (none models the fetch raising; note the
fetcher itself may also return an empty list), and the processor run
environment. -/
structure CategoryTask where
  category : String
  fetched : Option (List Paper)
  env : CatRunEnv

/-- The sequential fetch loop of run_arxiv_summarizer_async: a raised
fetch clears the flag of that category and drops the category; a category
with an empty paper list is dropped without touching its flag; the
rest become processing jobs. -/
def fetchPhase : List CategoryTask → Flags →
    List (String × List Paper × CatRunEnv) × Flags
  | [], flags => ([], flags)
  | t :: ts, flags =>
    match t.fetched with
    | none => fetchPhase ts (setFlag flags t.category false)
    | some ps =>
      if ps.isEmpty then fetchPhase ts flags
      else
        let (rest, flags2) := fetchPhase ts flags
        ((t.category, ps, t.env) :: rest, flags2)

/-- The `asyncio.gather` over process_category_with_semaphore tasks:
one result list per job, store and flag effects threaded through. -/
def processPhase (date : String) (maxPapers : Nat) :
    List (String × List Paper × CatRunEnv) → List Record → Flags →
    List (List Record) × List Record × Flags
  | [], store, flags => ([], store, flags)
  | (cat, ps, env) :: rest, store, flags =>
    let (res, store2, flags2) :=
      process_category_with_semaphore cat ps env date maxPapers store flags
    let (ress, store3, flags3) := processPhase date maxPapers rest store2 flags2
    (res :: ress, store3, flags3)

/-- main.py run_arxiv_summarizer_async: fetch per category, return
empty when no category has papers, otherwise run the processors and
flatten their result lists (the isinstance filter over gather results
never fires, because each task catches its own exceptions). -/
def run_arxiv_summarizer_async (date : String) (tasks : List CategoryTask)
    (maxPapers : Nat) (store : List Record) (flags : Flags) :
    List Record × List Record × Flags :=
  let (jobs, flags1) := fetchPhase tasks flags
  if jobs.isEmpty then ([], store, flags1)
  else
    let (results, store2, flags2) := processPhase date maxPapers jobs store flags1
    (results.flatten, store2, flags2)

/-! ### main.py, get_generation_status -/

/-- count_documents({"category_code": cat, "processed_date": today}). -/
def countDocsCatToday (store : List Record) (cat today : String) : Nat :=
  (store.filter (fun r => r.category_code = cat && r.processed_date = today)).length

/-- The per-category status computed by get_generation_status: a pure
read over the flag map and the store, mutating neither. -/
def generationStatusFor (flags : Flags) (store : List Record)
    (cat today : String) : String :=
  if flags cat then "in_progress"
  else if 0 < countDocsCatToday store cat today then "completed"
  else "not_started"

/-! ### The asyncio.Semaphore(3) scheduling discipline

process_category_with_semaphore enters `async with semaphore`, so a
category task waits while three others hold permits and releases its
permit when it finishes. States and steps of that protocol: -/

inductive TaskPhase
  | queued
  | running
  | finished
deriving Repr, DecidableEq

structure SchedState where
  avail : Nat
  tasks : List TaskPhase
deriving Repr, DecidableEq

def runningCount (s : SchedState) : Nat :=
  s.tasks.countP (fun t => t == TaskPhase.running)

/-- Acquire (enter the async with, needs a free permit, only a queued
task may start) and release (leave the async with, the task finishes). -/
inductive SemStep : SchedState → SchedState → Prop
  | acquire (s : SchedState) (i : Nat)
      (hq : s.tasks.getD i .finished = .queued) (ha : s.avail ≠ 0) :
      SemStep s ⟨s.avail - 1, s.tasks.set i .running⟩
  | release (s : SchedState) (i : Nat)
      (hr : s.tasks.getD i .finished = .running) :
      SemStep s ⟨s.avail + 1, s.tasks.set i .finished⟩

/-- Initial state: `asyncio.Semaphore(3)` fresh, all category tasks
queued. -/
def initState (n : Nat) : SchedState :=
  ⟨3, List.replicate n .queued⟩

def SemReachable (n : Nat) (s : SchedState) : Prop :=
  Relation.ReflTransGen SemStep (initState n) s

/-- The semaphore invariant: running tasks plus free permits is the
initial permit count 3. -/
def SemInv (s : SchedState) : Prop := runningCount s + s.avail = 3

/-- Absence of adjacent hyphens, as a chain relation. -/
def NoAdjHyphens (l : List Char) : Prop :=
  List.Chain' (fun a b => a ≠ '-' ∨ b ≠ '-') l

/-- The arxiv_id column of the store. -/
def storeIds (store : List Record) : List String :=
  store.map (fun r => r.arxiv_id)

/-- The non-None entries of the gathered worker results, which is what
process_category returns. -/
def successRecords (opts : List (Option Record)) : List Record :=
  opts.filterMap id

/-- The inputs of one partition processor run, for iterating
process_category runs against a store. -/
structure RunInput where
  category : String
  papers : List Paper
  env : CatRunEnv
  date : String
  maxPapers : Nat

/-- The store after one partition processor run (the flag map does not
influence the store, so a constant one is passed). -/
def applyRun (store : List Record) (i : RunInput) : List Record :=
  (process_category i.category i.papers i.env i.date i.maxPapers store
    (fun _ => false)).2.1

/-! ### Shared lemmas -/

theorem mkScoresAux_length (k : Nat) (ls : List (List Char)) :
    (mkScoresAux k ls).length = ls.length := by
  induction ls generalizing k with
  | nil => rfl
  | cons l ls ih => simp [mkScoresAux, ih]

theorem mkScoresAux_getElem? (k i : Nat) (ls : List (List Char))
    (h : i < ls.length) :
    (mkScoresAux k ls)[i]? = some (parseScoreLine (ls.getD i []), k + i) := by
  induction ls generalizing k i with
  | nil => simp at h
  | cons l ls ih =>
    cases i with
    | zero => simp [mkScoresAux]
    | succ j =>
      have hj : j < ls.length := by simpa using Nat.lt_of_succ_lt_succ h
      simp only [mkScoresAux, List.getElem?_cons_succ, List.getD_cons_succ]
      rw [ih (k + 1) j hj]
      congr 2
      omega

theorem parseScoreLine_short (l : List Char)
    (h : (splitOnSep "Score: ".data l).length < 2) : parseScoreLine l = 5 := by
  unfold parseScoreLine
  rw [List.getElem?_eq_none (by omega)]

theorem cnt_set_run (l : List TaskPhase) (i : Nat)
    (h : l.getD i .finished = .queued) :
    (l.set i .running).countP (fun t => t == TaskPhase.running) =
      l.countP (fun t => t == TaskPhase.running) + 1 := by
  induction l generalizing i with
  | nil => simp [List.getD] at h
  | cons x xs ih =>
    cases i with
    | zero =>
      simp only [List.getD_cons_zero] at h
      subst h
      simp [List.countP_cons]
    | succ j =>
      simp only [List.getD_cons_succ] at h
      simp only [List.set, List.countP_cons, ih j h]
      omega

theorem cnt_set_fin (l : List TaskPhase) (i : Nat)
    (h : l.getD i .finished = .running) :
    (l.set i .finished).countP (fun t => t == TaskPhase.running) + 1 =
      l.countP (fun t => t == TaskPhase.running) := by
  induction l generalizing i with
  | nil => simp [List.getD] at h
  | cons x xs ih =>
    cases i with
    | zero =>
      simp only [List.getD_cons_zero] at h
      subst h
      simp [List.countP_cons]
    | succ j =>
      simp only [List.getD_cons_succ] at h
      simp only [List.set, List.countP_cons]
      have := ih j h
      omega

theorem cnt_replicate_queued (n : Nat) :
    (List.replicate n TaskPhase.queued).countP
      (fun t => t == TaskPhase.running) = 0 := by
  induction n with
  | zero => rfl
  | succ m ih => simp [List.replicate, List.countP_cons, ih]

theorem semStep_inv {s s' : SchedState} (st : SemStep s s') (h : SemInv s) :
    SemInv s' := by
  cases st with
  | acquire i hq ha =>
    unfold SemInv runningCount at h ⊢
    simp only
    rw [cnt_set_run s.tasks i hq]
    omega
  | release i hr =>
    unfold SemInv runningCount at h ⊢
    simp only
    have := cnt_set_fin s.tasks i hr
    omega

theorem semReachable_inv {n : Nat} {s : SchedState} (h : SemReachable n s) :
    SemInv s := by
  induction h with
  | refl =>
    unfold SemInv runningCount initState
    simp [cnt_replicate_queued]
  | tail _ st ih => exact semStep_inv st ih

/-! ### Claims -/

/-- C10: when the ranking oracle call raises, score_papers_by_title
swallows the exception and returns the first top_k papers of the input
in their original order, and an empty input returns empty regardless of
the oracle (the early return happens before any oracle call). -/
theorem c10_oracle_failure_fallback :
    ∀ (papers : List Paper) (topK : Nat) (o : Option String),
      scorePapersByTitle papers topK none = papers.take topK ∧
      scorePapersByTitle [] topK o = [] := by
  intro papers topK o
  constructor
  · cases papers <;> simp [scorePapersByTitle]
  · simp [scorePapersByTitle]

/-- C8: the status surface reports exactly one of in_progress,
completed, not_started; a set flag takes precedence, completed needs an
unset flag plus at least one record for the category with the current
day bucket, not_started covers the rest; the computation only reads the
flag map and the store. -/
theorem c8_status_values (flags : Flags) (store : List Record)
    (cat today : String) :
    (generationStatusFor flags store cat today = "in_progress" ∨
     generationStatusFor flags store cat today = "completed" ∨
     generationStatusFor flags store cat today = "not_started") ∧
    (flags cat = true →
      generationStatusFor flags store cat today = "in_progress") ∧
    (flags cat = false → 0 < countDocsCatToday store cat today →
      generationStatusFor flags store cat today = "completed") ∧
    (flags cat = false → countDocsCatToday store cat today = 0 →
      generationStatusFor flags store cat today = "not_started") := by
  unfold generationStatusFor
  refine ⟨?_, fun h => by simp [h], fun h h2 => by simp [h, h2],
    fun h h2 => by simp [h, h2]⟩
  by_cases h : flags cat
  · simp [h]
  · by_cases h2 : 0 < countDocsCatToday store cat today <;> simp [h, h2]

theorem c8_witness :
    generationStatusFor (fun _ => false) [] "cs.LG" "2026-10-12" =
      "not_started" :=
  (c8_status_values (fun _ => false) [] "cs.LG" "2026-10-12").2.2.2 rfl rfl

/-- C2: the claim requires every partition key handed to the
orchestrator to end with its in-progress flag false, including one
whose fetch returned no papers. The code violates this: a category
whose fetch succeeds with an empty list is silently dropped without
clearing the flag that generate_summaries set before dispatch, so the
flag stays true after the run completes. -/
theorem c2_flag_left_set_on_empty_fetch :
    ((run_arxiv_summarizer_async "2026-10-12"
        [⟨"cs.LG", some [], ⟨none, fun _ => ItemOutcome.raised, false⟩⟩]
        1 [] (setFlag (fun _ => false) "cs.LG" true)).2.2) "cs.LG" = true := by
  decide

/-- C1 (amended): the parsing loop produces exactly one (score, index)
pair per line of the oracle response text, not one per submitted
candidate; a line that cannot be parsed defaults to the neutral score
5, but a candidate whose line is missing receives no pair at all, so
the count equals the number of candidates only when the response has
exactly that many lines. -/
theorem c1_one_pair_per_line :
    ∀ (lines : List (List Char)),
      (mkScores lines).length = lines.length ∧
      (∀ i, i < lines.length →
        (mkScores lines)[i]? = some (parseScoreLine (lines.getD i []), i)) ∧
      (∀ l : List Char, (splitOnSep "Score: ".data l).length < 2 →
        parseScoreLine l = 5) := by
  intro lines
  refine ⟨mkScoresAux_length 0 lines, fun i h => ?_, parseScoreLine_short⟩
  simpa using mkScoresAux_getElem? 0 i lines h

theorem c1_witness :
    (mkScores ["1. Score: 7 - good".data]).length = 1 ∧
    (mkScores ["1. Score: 7 - good".data])[0]? = some (7, 0) := by
  refine ⟨(c1_one_pair_per_line ["1. Score: 7 - good".data]).1, ?_⟩
  have := (c1_one_pair_per_line ["1. Score: 7 - good".data]).2.1 0 (by decide)
  rw [this]
  decide

/-- C1 counterexample: three candidates, an oracle response with only
two score lines. The parsing yields two pairs, not three, and the
selection with top_k = 3 returns only two papers: the third candidate
is dropped from the ranking instead of receiving the default score. -/
theorem c1_counterexample :
    (mkScores (linesOf "1. Score: 7 - good\n2. Score: 6 - fine")).length = 2 ∧
    ¬ (mkScores (linesOf "1. Score: 7 - good\n2. Score: 6 - fine")).length = 3 ∧
    (scorePapersByTitle
        [⟨some "a1", "t1"⟩, ⟨some "a2", "t2"⟩, ⟨some "a3", "t3"⟩] 3
        (some "1. Score: 7 - good\n2. Score: 6 - fine")).length = 2 := by
  decide

/-- C7: in the semaphore scheduling protocol of
process_category_with_semaphore, every state reachable from the initial
state (three permits, any number of queued category tasks) has at most
three tasks running simultaneously. -/
theorem c7_at_most_three_running (n : Nat) (s : SchedState)
    (h : SemReachable n s) : runningCount s ≤ 3 := by
  have hinv := semReachable_inv h
  unfold SemInv at hinv
  omega

theorem c7_witness : runningCount (initState 5) ≤ 3 :=
  c7_at_most_three_running 5 (initState 5) Relation.ReflTransGen.refl

/-! ### Selection bound machinery for C3 -/

theorem mkScoresAux_map_snd (k : Nat) (ls : List (List Char)) :
    (mkScoresAux k ls).map Prod.snd = List.range' k ls.length := by
  induction ls generalizing k with
  | nil => rfl
  | cons l ls ih => simp [mkScoresAux, List.range'_succ, ih]

theorem sortedScores_map_snd_nodup (resp : String) :
    ((sortedScores resp).map Prod.snd).Nodup := by
  have hperm : List.Perm (sortedScores resp) (mkScores (linesOf resp)) :=
    List.perm_insertionSort scoreRel _
  have hmap := hperm.map Prod.snd
  rw [List.Perm.nodup_iff hmap]
  rw [show mkScores (linesOf resp) = mkScoresAux 0 (linesOf resp) from rfl,
    mkScoresAux_map_snd]
  exact List.nodup_range' 0 _

theorem selectedIndices_nodup (resp : String) (topK : Nat) :
    (selectedIndices resp topK).Nodup := by
  unfold selectedIndices
  exact (((sortedScores resp).take_sublist topK).map Prod.snd).nodup
    (sortedScores_map_snd_nodup resp)

theorem nodup_lt_length_le (l : List Nat) (n : Nat) (h1 : l.Nodup)
    (h2 : ∀ i ∈ l, i < n) : l.length ≤ n := by
  have hcard : l.toFinset.card = l.length := List.toFinset_card_of_nodup h1
  have hsub : l.toFinset ⊆ Finset.range n := by
    intro x hx
    exact Finset.mem_range.mpr (h2 x (List.mem_toFinset.mp hx))
  have := Finset.card_le_card hsub
  rw [hcard, Finset.card_range] at this
  exact this

theorem scorePapersByTitle_length_le (papers : List Paper) (topK : Nat)
    (o : Option String) :
    (scorePapersByTitle papers topK o).length ≤ min topK papers.length := by
  unfold scorePapersByTitle
  by_cases hp : papers.isEmpty
  · simp [hp]
  · simp only [hp, if_false, Bool.false_eq_true]
    match o with
    | none => simp [List.length_take]
    | some resp =>
      simp only
      by_cases hall : (selectedIndices resp topK).all
          (fun i => decide (i < papers.length))
      · simp only [hall, if_true]
        rw [List.length_map]
        have h1 : (selectedIndices resp topK).length ≤ topK := by
          unfold selectedIndices
          rw [List.length_map]
          simp [List.length_take]
        have h2 : (selectedIndices resp topK).length ≤ papers.length := by
          refine nodup_lt_length_le _ _ (selectedIndices_nodup resp topK) ?_
          intro i hi
          have := (List.all_eq_true.mp hall) i hi
          exact of_decide_eq_true this
        omega
      · simp [hall, List.length_take]

/-- C3 (amended): the selection returns at most
min(maxSelect, number of candidates) papers, ordered by descending
parsed score; but candidates of equal score are kept in reverse oracle
response order (the later line first), because the Python
sort(reverse=True) on (score, index) pairs also reverses the index
component on ties, rather than in stable response order. -/
theorem c3_selection_bound_and_order :
    (∀ (papers : List Paper) (topK : Nat) (o : Option String),
      (scorePapersByTitle papers topK o).length ≤ min topK papers.length) ∧
    (∀ resp : String, List.Sorted scoreRel (sortedScores resp)) ∧
    (∀ (s : Int) (i j : Nat), scoreRel (s, i) (s, j) ↔ j ≤ i) := by
  refine ⟨scorePapersByTitle_length_le, fun resp => ?_, fun s i j => ?_⟩
  · exact List.sorted_insertionSort scoreRel _
  · unfold scoreRel
    simp

theorem c3_witness :
    (scorePapersByTitle [⟨some "a1", "t1"⟩] 1 none).length ≤ min 1 1 :=
  c3_selection_bound_and_order.1 [⟨some "a1", "t1"⟩] 1 none

/-! ### slugify lemmas for C9 -/

theorem collapseHyphens_nil : collapseHyphens [] = [] := by
  simp [collapseHyphens]

theorem skipHyphens_nil : skipHyphens [] = [] := by
  simp [skipHyphens]

theorem collapseHyphens_cons_hyphen (cs : List Char) :
    collapseHyphens ('-' :: cs) = '-' :: skipHyphens cs := by
  simp [collapseHyphens]

theorem collapseHyphens_cons_other (c : Char) (cs : List Char) (h : c ≠ '-') :
    collapseHyphens (c :: cs) = c :: collapseHyphens cs := by
  simp [collapseHyphens, h]

theorem skipHyphens_cons_hyphen (cs : List Char) :
    skipHyphens ('-' :: cs) = skipHyphens cs := by
  simp [skipHyphens]

theorem skipHyphens_cons_other (c : Char) (cs : List Char) (h : c ≠ '-') :
    skipHyphens (c :: cs) = c :: collapseHyphens cs := by
  simp [skipHyphens, h]

theorem collapseHyphens_chain (l : List Char) :
    NoAdjHyphens (collapseHyphens l) ∧ NoAdjHyphens (skipHyphens l) ∧
      (∀ c, (skipHyphens l).head? = some c → c ≠ '-') := by
  induction l with
  | nil =>
    rw [collapseHyphens_nil, skipHyphens_nil]
    exact ⟨List.chain'_nil, List.chain'_nil, by intro c h; simp at h⟩
  | cons x xs ih =>
    obtain ⟨ihc, ihs, ihh⟩ := ih
    by_cases hx : x = '-'
    · subst hx
      rw [collapseHyphens_cons_hyphen, skipHyphens_cons_hyphen]
      exact ⟨List.chain'_cons'.mpr ⟨fun y hy => Or.inr (ihh y hy), ihs⟩,
        ihs, ihh⟩
    · have hcol : NoAdjHyphens (x :: collapseHyphens xs) :=
        List.chain'_cons'.mpr ⟨fun y _ => Or.inl hx, ihc⟩
      rw [collapseHyphens_cons_other x xs hx, skipHyphens_cons_other x xs hx]
      refine ⟨hcol, hcol, ?_⟩
      intro c hc
      simp only [List.head?_cons, Option.some.injEq] at hc
      subst hc
      exact hx

theorem collapseHyphens_mem (l : List Char) :
    (∀ c ∈ collapseHyphens l, c ∈ l) ∧ (∀ c ∈ skipHyphens l, c ∈ l) := by
  induction l with
  | nil =>
    rw [collapseHyphens_nil, skipHyphens_nil]
    exact ⟨fun c h => h, fun c h => h⟩
  | cons x xs ih =>
    obtain ⟨ihc, ihs⟩ := ih
    by_cases hx : x = '-'
    · subst hx
      rw [collapseHyphens_cons_hyphen, skipHyphens_cons_hyphen]
      constructor
      · intro c hc
        rcases List.mem_cons.mp hc with h | h
        · simp [h]
        · exact List.mem_cons_of_mem _ (ihs c h)
      · intro c hc
        exact List.mem_cons_of_mem _ (ihs c hc)
    · rw [collapseHyphens_cons_other x xs hx, skipHyphens_cons_other x xs hx]
      constructor <;> intro c hc <;> rcases List.mem_cons.mp hc with h | h
      · simp [h]
      · exact List.mem_cons_of_mem _ (ihc c h)
      · simp [h]
      · exact List.mem_cons_of_mem _ (ihc c h)

theorem subWsRuns_cons_space (c : Char) (cs : List Char)
    (h : pyIsSpace c = true) : subWsRuns (c :: cs) = '-' :: skipWs cs := by
  simp [subWsRuns, h]

theorem subWsRuns_cons_other (c : Char) (cs : List Char)
    (h : pyIsSpace c = false) : subWsRuns (c :: cs) = c :: subWsRuns cs := by
  simp [subWsRuns, h]

theorem skipWs_cons_space (c : Char) (cs : List Char)
    (h : pyIsSpace c = true) : skipWs (c :: cs) = skipWs cs := by
  simp [skipWs, h]

theorem skipWs_cons_other (c : Char) (cs : List Char)
    (h : pyIsSpace c = false) : skipWs (c :: cs) = c :: subWsRuns cs := by
  simp [skipWs, h]

theorem subWsRuns_mem (l : List Char) :
    (∀ c ∈ subWsRuns l, c = '-' ∨ c ∈ l) ∧
      (∀ c ∈ skipWs l, c = '-' ∨ c ∈ l) := by
  induction l with
  | nil =>
    constructor <;> intro c h <;> simp [subWsRuns, skipWs] at h
  | cons x xs ih =>
    obtain ⟨ihc, ihs⟩ := ih
    by_cases hx : pyIsSpace x
    · rw [subWsRuns_cons_space x xs hx, skipWs_cons_space x xs hx]
      constructor
      · intro c hc
        rcases List.mem_cons.mp hc with h | h
        · exact Or.inl h
        · rcases ihs c h with h2 | h2
          · exact Or.inl h2
          · exact Or.inr (List.mem_cons_of_mem _ h2)
      · intro c hc
        rcases ihs c hc with h2 | h2
        · exact Or.inl h2
        · exact Or.inr (List.mem_cons_of_mem _ h2)
    · have hx2 : pyIsSpace x = false := by simpa using hx
      rw [subWsRuns_cons_other x xs hx2, skipWs_cons_other x xs hx2]
      constructor <;> intro c hc <;> rcases List.mem_cons.mp hc with h | h
      · exact Or.inr (by simp [h])
      · rcases ihc c h with h2 | h2
        · exact Or.inl h2
        · exact Or.inr (List.mem_cons_of_mem _ h2)
      · exact Or.inr (by simp [h])
      · rcases ihc c h with h2 | h2
        · exact Or.inl h2
        · exact Or.inr (List.mem_cons_of_mem _ h2)

theorem stripHyphens_within (l : List Char) : stripHyphens l <:+: l := by
  have h1 : l.dropWhile (· = '-') <:+ l := List.dropWhile_suffix _
  have h2 : (l.dropWhile (· = '-')).reverse.dropWhile (· = '-') <:+
      (l.dropWhile (· = '-')).reverse := List.dropWhile_suffix _
  have h3 : stripHyphens l <+: l.dropWhile (· = '-') := by
    unfold stripHyphens
    rw [← List.reverse_suffix]
    simpa using h2
  exact h3.isInfix.trans h1.isInfix

theorem head_dropWhileHyphen_ne (l : List Char) :
    ∀ c, (l.dropWhile (· = '-')).head? = some c → c ≠ '-' := by
  induction l with
  | nil => intro c h; simp at h
  | cons x xs ih =>
    intro c h
    by_cases hx : x = '-'
    · rw [List.dropWhile_cons_of_pos (by simp [hx])] at h
      exact ih c h
    · rw [List.dropWhile_cons_of_neg (by simp [hx])] at h
      simp only [List.head?_cons, Option.some.injEq] at h
      subst h
      exact hx

theorem stripHyphens_head (l : List Char) :
    ∀ c, (stripHyphens l).head? = some c → c ≠ '-' := by
  intro c hc
  have h3 : stripHyphens l <+: l.dropWhile (· = '-') := by
    unfold stripHyphens
    rw [← List.reverse_suffix]
    simpa using List.dropWhile_suffix (l := (l.dropWhile (· = '-')).reverse) (· = '-')
  obtain ⟨t, ht⟩ := h3
  cases hsl : stripHyphens l with
  | nil => rw [hsl] at hc; simp at hc
  | cons a as =>
    rw [hsl] at hc ht
    simp only [List.head?_cons, Option.some.injEq] at hc
    subst hc
    refine head_dropWhileHyphen_ne l a ?_
    rw [← ht]
    simp

theorem stripHyphens_last (l : List Char) :
    ∀ c, (stripHyphens l).getLast? = some c → c ≠ '-' := by
  intro c hc
  unfold stripHyphens at hc
  rw [List.getLast?_reverse] at hc
  exact head_dropWhileHyphen_ne _ c hc

/-- C9: the slug derivation is the stated five-step pipeline, and its
output contains only lowercase letters, digits and hyphens, with no two
adjacent hyphens and no leading or trailing hyphen. -/
theorem c9_slugify_shape :
    ∀ s : String,
      (slugify s).data = stripHyphens (collapseHyphens
        ((subWsRuns (s.data.map Char.toLower)).filter slugChar)) ∧
      (∀ c ∈ (slugify s).data, slugChar c = true) ∧
      NoAdjHyphens (slugify s).data ∧
      (∀ c, ((slugify s).data.head? = some c → c ≠ '-') ∧
        ((slugify s).data.getLast? = some c → c ≠ '-')) := by
  intro s
  set mid := (subWsRuns (s.data.map Char.toLower)).filter slugChar with hmid
  have hdata : (slugify s).data = stripHyphens (collapseHyphens mid) := rfl
  refine ⟨hdata, ?_, ?_, ?_⟩
  · intro c hc
    rw [hdata] at hc
    have h1 : c ∈ collapseHyphens mid :=
      (stripHyphens_within (collapseHyphens mid)).sublist.subset hc
    have h2 : c ∈ mid := (collapseHyphens_mem mid).1 c h1
    exact List.of_mem_filter h2
  · rw [hdata]
    exact List.Chain'.infix ((collapseHyphens_chain mid).1)
      (stripHyphens_within (collapseHyphens mid))
  · intro c
    rw [hdata]
    exact ⟨stripHyphens_head _ c, stripHyphens_last _ c⟩

theorem c9_witness : ('h' : Char) ≠ '-' :=
  ((c9_slugify_shape "Hi there").2.2.2 'h').1 (by decide)

/-- C3 counterexample: two candidates with equal scores. The claim
predicts stable oracle response order, i.e. the first candidate before
the second; the code returns them reversed. -/
theorem c3_counterexample :
    scorePapersByTitle [⟨some "a1", "t1"⟩, ⟨some "a2", "t2"⟩] 2
        (some "1. Score: 7 - x\n2. Score: 7 - y") =
      [⟨some "a2", "t2"⟩, ⟨some "a1", "t1"⟩] ∧
    ¬ scorePapersByTitle [⟨some "a1", "t1"⟩, ⟨some "a2", "t2"⟩] 2
        (some "1. Score: 7 - x\n2. Score: 7 - y") =
      [⟨some "a1", "t1"⟩, ⟨some "a2", "t2"⟩] := by
  decide

/-! ### Store and worker lemmas for C4 and C6 -/

theorem storeIds_nil : storeIds [] = [] := rfl

theorem storeIds_cons (x : Record) (t : List Record) :
    storeIds (x :: t) = x.arxiv_id :: storeIds t := rfl

theorem upsert_cons_eq (y : Record) (ys : List Record) (r : Record)
    (h : y.arxiv_id = r.arxiv_id) : upsert (y :: ys) r = r :: ys := by
  simp [upsert, h]

theorem upsert_cons_ne (y : Record) (ys : List Record) (r : Record)
    (h : ¬ y.arxiv_id = r.arxiv_id) : upsert (y :: ys) r = y :: upsert ys r := by
  simp [upsert, h]

theorem mem_upsert_self (store : List Record) (r : Record) :
    r ∈ upsert store r := by
  induction store with
  | nil => simp [upsert]
  | cons x xs ih =>
    by_cases h : x.arxiv_id = r.arxiv_id
    · rw [upsert_cons_eq x xs r h]
      exact List.mem_cons_self r xs
    · rw [upsert_cons_ne x xs r h]
      exact List.mem_cons_of_mem _ ih

theorem mem_upsert_of_ne (store : List Record) (r r2 : Record)
    (hm : r ∈ store) (hne : r.arxiv_id ≠ r2.arxiv_id) :
    r ∈ upsert store r2 := by
  induction store with
  | nil => simp at hm
  | cons x xs ih =>
    by_cases h : x.arxiv_id = r2.arxiv_id
    · rw [upsert_cons_eq x xs r2 h]
      rcases List.mem_cons.mp hm with h2 | h2
      · subst h2
        exact absurd h hne
      · exact List.mem_cons_of_mem _ h2
    · rw [upsert_cons_ne x xs r2 h]
      rcases List.mem_cons.mp hm with h2 | h2
      · simp [h2]
      · exact List.mem_cons_of_mem _ (ih h2)

theorem mem_storeIds_upsert (store : List Record) (r : Record) (x : String)
    (h : x ∈ storeIds (upsert store r)) :
    x = r.arxiv_id ∨ x ∈ storeIds store := by
  induction store with
  | nil =>
    rw [show upsert [] r = [r] from rfl, storeIds_cons, storeIds_nil] at h
    exact Or.inl (by simpa using h)
  | cons y ys ih =>
    by_cases hy : y.arxiv_id = r.arxiv_id
    · rw [upsert_cons_eq y ys r hy, storeIds_cons] at h
      rw [storeIds_cons]
      rcases List.mem_cons.mp h with h2 | h2
      · exact Or.inl h2
      · exact Or.inr (List.mem_cons_of_mem _ h2)
    · rw [upsert_cons_ne y ys r hy, storeIds_cons] at h
      rw [storeIds_cons]
      rcases List.mem_cons.mp h with h2 | h2
      · exact Or.inr (by simp [h2])
      · rcases ih h2 with h3 | h3
        · exact Or.inl h3
        · exact Or.inr (List.mem_cons_of_mem _ h3)

theorem upsert_nodup (store : List Record) (r : Record)
    (h : (storeIds store).Nodup) : (storeIds (upsert store r)).Nodup := by
  induction store with
  | nil => simp [upsert, storeIds]
  | cons y ys ih =>
    rw [storeIds_cons] at h
    have h1 : y.arxiv_id ∉ storeIds ys := (List.nodup_cons.mp h).1
    have h2 : (storeIds ys).Nodup := (List.nodup_cons.mp h).2
    by_cases hy : y.arxiv_id = r.arxiv_id
    · rw [upsert_cons_eq y ys r hy, storeIds_cons]
      exact List.nodup_cons.mpr ⟨hy ▸ h1, h2⟩
    · rw [upsert_cons_ne y ys r hy, storeIds_cons]
      refine List.nodup_cons.mpr ⟨?_, ih h2⟩
      intro hc
      rcases mem_storeIds_upsert ys r _ hc with h3 | h3
      · exact hy h3
      · exact h1 h3

theorem upsert_length_of_mem (store : List Record) (r : Record)
    (h : r.arxiv_id ∈ storeIds store) :
    (upsert store r).length = store.length := by
  induction store with
  | nil => simp [storeIds] at h
  | cons y ys ih =>
    by_cases hy : y.arxiv_id = r.arxiv_id
    · rw [upsert_cons_eq y ys r hy]
      simp
    · rw [upsert_cons_ne y ys r hy]
      rw [storeIds_cons, List.mem_cons] at h
      rcases h with h | h
      · exact absurd h.symm hy
      · simp [ih h]

theorem worker_cases (cat catName catSlug date : String)
    (outcome : Paper → ItemOutcome) (store : List Record) (p : Paper) :
    ((process_and_save_paper cat catName catSlug date outcome store p).1 = none ∧
     (process_and_save_paper cat catName catSlug date outcome store p).2 = store) ∨
    (∃ r, (process_and_save_paper cat catName catSlug date outcome store p).1 = some r ∧
      (process_and_save_paper cat catName catSlug date outcome store p).2 = upsert store r) := by
  cases ho : outcome p with
  | raised => left; constructor <;> simp [process_and_save_paper, ho]
  | persistFail s => left; constructor <;> simp [process_and_save_paper, ho]
  | ok s =>
    by_cases ht : s.title = ""
    · left; constructor <;> simp [process_and_save_paper, ho, ht]
    · cases ha : s.arxiv_id with
      | none => left; constructor <;> simp [process_and_save_paper, ho, ht, ha]
      | some aid =>
        by_cases haid : aid = ""
        · left; constructor <;> simp [process_and_save_paper, ho, ht, ha, haid]
        · right
          refine ⟨⟨s.title, slugify s.title, s.authors, cat, catName,
            catSlug, aid, s.url, s.detailed_summary, date⟩, ?_, ?_⟩ <;>
            simp [process_and_save_paper, ho, ht, ha, haid]

theorem runWorkers_nil (cat catName catSlug date : String)
    (outcome : Paper → ItemOutcome) (store : List Record) :
    runWorkers cat catName catSlug date outcome store [] = ([], store) := rfl

theorem runWorkers_cons (cat catName catSlug date : String)
    (outcome : Paper → ItemOutcome) (store : List Record) (p : Paper)
    (ps : List Paper) :
    runWorkers cat catName catSlug date outcome store (p :: ps) =
      ((process_and_save_paper cat catName catSlug date outcome store p).1 ::
        (runWorkers cat catName catSlug date outcome
          (process_and_save_paper cat catName catSlug date outcome store p).2 ps).1,
       (runWorkers cat catName catSlug date outcome
          (process_and_save_paper cat catName catSlug date outcome store p).2 ps).2) := by
  simp [runWorkers]

theorem runWorkers_length (cat catName catSlug date : String)
    (outcome : Paper → ItemOutcome) (ps : List Paper) (store : List Record) :
    (runWorkers cat catName catSlug date outcome store ps).1.length = ps.length := by
  induction ps generalizing store with
  | nil => rfl
  | cons p tl ih =>
    rw [runWorkers_cons]
    simp [ih]

theorem runWorkers_store_nodup (cat catName catSlug date : String)
    (outcome : Paper → ItemOutcome) (ps : List Paper) (store : List Record)
    (h : (storeIds store).Nodup) :
    (storeIds (runWorkers cat catName catSlug date outcome store ps).2).Nodup := by
  induction ps generalizing store with
  | nil => exact h
  | cons p tl ih =>
    rw [runWorkers_cons]
    apply ih
    rcases worker_cases cat catName catSlug date outcome store p with
      ⟨_, h2⟩ | ⟨r, _, h2⟩
    · rw [h2]; exact h
    · rw [h2]; exact upsert_nodup store r h

theorem runWorkers_raised (cat catName catSlug date : String)
    (outcome : Paper → ItemOutcome) (ps : List Paper) :
    ∀ (store : List Record) (i : Nat) (h : i < ps.length),
      outcome (ps.get ⟨i, h⟩) = ItemOutcome.raised →
      (runWorkers cat catName catSlug date outcome store ps).1[i]? = some none := by
  induction ps with
  | nil => intro store i h; simp at h
  | cons p tl ih =>
    intro store i h hr
    rw [runWorkers_cons]
    cases i with
    | zero =>
      have hr0 : outcome p = ItemOutcome.raised := hr
      have hp : (process_and_save_paper cat catName catSlug date outcome store p).1 = none := by
        simp [process_and_save_paper, hr0]
      simp [hp]
    | succ j =>
      have hj : j < tl.length := Nat.lt_of_succ_lt_succ h
      have hr2 : outcome (tl.get ⟨j, hj⟩) = ItemOutcome.raised := hr
      simp only [List.getElem?_cons_succ]
      exact ih _ j hj hr2

theorem successRecords_nil : successRecords [] = [] := rfl

theorem successRecords_cons_none (opts : List (Option Record)) :
    successRecords (none :: opts) = successRecords opts := by
  simp [successRecords]

theorem successRecords_cons_some (r : Record) (opts : List (Option Record)) :
    successRecords (some r :: opts) = r :: successRecords opts := by
  simp [successRecords]

/-- A record already in the store survives the whole worker fan-out as
long as no worker upserts its arxiv_id again. -/
theorem runWorkers_preserves_mem (cat catName catSlug date : String)
    (outcome : Paper → ItemOutcome) (ps : List Paper) :
    ∀ (store : List Record) (r : Record), r ∈ store →
      r.arxiv_id ∉ (successRecords
        (runWorkers cat catName catSlug date outcome store ps).1).map
          (fun x => x.arxiv_id) →
      r ∈ (runWorkers cat catName catSlug date outcome store ps).2 := by
  induction ps with
  | nil => intro store r hmem _; exact hmem
  | cons p tl ih =>
    intro store r hmem hid
    rw [runWorkers_cons] at hid ⊢
    rcases worker_cases cat catName catSlug date outcome store p with
      ⟨h1, h2⟩ | ⟨r1, h1, h2⟩
    · rw [h1, successRecords_cons_none] at hid
      rw [h2] at hid ⊢
      exact ih store r hmem hid
    · rw [h1, successRecords_cons_some] at hid
      rw [h2] at hid ⊢
      simp only [List.map_cons, List.mem_cons, not_or] at hid
      exact ih (upsert store r1) r
        (mem_upsert_of_ne store r r1 hmem hid.1) hid.2

/-- The record of every successful worker is in the final store, provided
the successful records carry pairwise distinct arxiv_ids. -/
theorem runWorkers_successes_mem (cat catName catSlug date : String)
    (outcome : Paper → ItemOutcome) (ps : List Paper) :
    ∀ (store : List Record),
      (((successRecords
          (runWorkers cat catName catSlug date outcome store ps).1).map
            (fun x => x.arxiv_id)).Nodup) →
      ∀ r ∈ successRecords
          (runWorkers cat catName catSlug date outcome store ps).1,
        r ∈ (runWorkers cat catName catSlug date outcome store ps).2 := by
  induction ps with
  | nil =>
    intro store _ r hr
    rw [runWorkers_nil, successRecords_nil] at hr
    simp at hr
  | cons p tl ih =>
    intro store hnd r hr
    rw [runWorkers_cons] at hnd hr ⊢
    rcases worker_cases cat catName catSlug date outcome store p with
      ⟨h1, h2⟩ | ⟨r1, h1, h2⟩
    · rw [h1, successRecords_cons_none] at hnd hr
      rw [h2] at hnd hr ⊢
      exact ih store hnd r hr
    · rw [h1, successRecords_cons_some] at hnd hr
      rw [h2] at hnd hr ⊢
      simp only [List.map_cons, List.nodup_cons] at hnd
      rcases List.mem_cons.mp hr with h3 | h3
      · subst h3
        exact runWorkers_preserves_mem cat catName catSlug date outcome tl
          (upsert store r) r (mem_upsert_self store r) hnd.1
      · exact ih (upsert store r1) hnd.2 r h3

/-- C4 (amended): when one item worker raises, its slot is None and it
is dropped from the aggregated results; every sibling worker still
produces a result slot (one per selected item); and, provided the
successful records are assigned pairwise distinct identities, every
successfully upserted record of every sibling is still present in the store
afterwards. Two successful siblings that share an identity instead
overwrite one another (last-writer-wins upsert), which is what the
counterexample exhibits. -/
theorem c4_item_failure_isolation :
    ∀ (cat catName catSlug date : String) (outcome : Paper → ItemOutcome)
      (store : List Record) (sel : List Paper),
      (((successRecords
          (runWorkers cat catName catSlug date outcome store sel).1).map
            (fun x => x.arxiv_id)).Nodup) →
      ((runWorkers cat catName catSlug date outcome store sel).1.length
          = sel.length) ∧
      (∀ i (h : i < sel.length),
        outcome (sel.get ⟨i, h⟩) = ItemOutcome.raised →
        (runWorkers cat catName catSlug date outcome store sel).1[i]?
          = some none) ∧
      (∀ r ∈ successRecords
          (runWorkers cat catName catSlug date outcome store sel).1,
        r ∈ (runWorkers cat catName catSlug date outcome store sel).2) := by
  intro cat catName catSlug date outcome store sel hnd
  exact ⟨runWorkers_length cat catName catSlug date outcome sel store,
    fun i h hr => runWorkers_raised cat catName catSlug date outcome sel store i h hr,
    runWorkers_successes_mem cat catName catSlug date outcome sel store hnd⟩

theorem c4_witness :
    (runWorkers "cs.LG" "Machine Learning" "machine-learning" "2026-10-12"
      (fun p => if p.title = "t1" then ItemOutcome.ok ⟨"t1", "au", some "x", "u", "s"⟩
        else if p.title = "t3" then ItemOutcome.ok ⟨"t3", "au", some "y", "u", "s"⟩
        else ItemOutcome.raised)
      [] [⟨some "x", "t1"⟩, ⟨some "z", "t2"⟩, ⟨some "y", "t3"⟩]).1[1]?
      = some none :=
  (c4_item_failure_isolation "cs.LG" "Machine Learning" "machine-learning"
    "2026-10-12"
    (fun p => if p.title = "t1" then ItemOutcome.ok ⟨"t1", "au", some "x", "u", "s"⟩
      else if p.title = "t3" then ItemOutcome.ok ⟨"t3", "au", some "y", "u", "s"⟩
      else ItemOutcome.raised)
    [] [⟨some "x", "t1"⟩, ⟨some "z", "t2"⟩, ⟨some "y", "t3"⟩]
    (by decide)).2.1 1 (by decide) (by decide)

/-- C4 counterexample: the fetch hands the processor two descriptors
with the same entry_id "x" (titles "a" and "b") plus one descriptor "c"
whose worker raises. Both "x" workers succeed, so by the claim the
record of worker #1 must still be in the store at the end; instead the
upsert of worker #3, keyed by the same arxiv_id, overwrites it, and
only the later record remains even though both are returned. -/
theorem c4_counterexample :
    ((⟨"a", "a", "au", "cs.LG", "Machine Learning", "machine-learning",
        "x", "u", "s", "2026-10-12"⟩ : Record) ∈
      (process_category "cs.LG"
        [⟨some "x", "a"⟩, ⟨some "z", "c"⟩, ⟨some "x", "b"⟩]
        ⟨none,
         fun p =>
            if p.title = "a" then
              ItemOutcome.ok ⟨"a", "au", some "x", "u", "s"⟩
            else if p.title = "b" then
              ItemOutcome.ok ⟨"b", "au", some "x", "u", "s"⟩
            else ItemOutcome.raised,
         false⟩
        "2026-10-12" 3 [] (fun _ => false)).1) ∧
    ((⟨"a", "a", "au", "cs.LG", "Machine Learning", "machine-learning",
        "x", "u", "s", "2026-10-12"⟩ : Record) ∉
      (process_category "cs.LG"
        [⟨some "x", "a"⟩, ⟨some "z", "c"⟩, ⟨some "x", "b"⟩]
        ⟨none,
         fun p =>
            if p.title = "a" then
              ItemOutcome.ok ⟨"a", "au", some "x", "u", "s"⟩
            else if p.title = "b" then
              ItemOutcome.ok ⟨"b", "au", some "x", "u", "s"⟩
            else ItemOutcome.raised,
         false⟩
        "2026-10-12" 3 [] (fun _ => false)).2.1) := by
  decide

/-! ### Orchestrator lemmas for C5 -/

theorem processPhase_nil (date : String) (mp : Nat) (store : List Record)
    (flags : Flags) : processPhase date mp [] store flags = ([], store, flags) :=
  rfl

theorem processPhase_cons (date : String) (mp : Nat) (cat : String)
    (ps : List Paper) (env : CatRunEnv)
    (rest : List (String × List Paper × CatRunEnv)) (store : List Record)
    (flags : Flags) :
    (processPhase date mp ((cat, ps, env) :: rest) store flags).1 =
      (process_category_with_semaphore cat ps env date mp store flags).1 ::
        (processPhase date mp rest
          (process_category_with_semaphore cat ps env date mp store flags).2.1
          (process_category_with_semaphore cat ps env date mp store flags).2.2).1 := by
  conv_lhs => rw [processPhase]

theorem processPhase_length (date : String) (mp : Nat)
    (jobs : List (String × List Paper × CatRunEnv)) :
    ∀ (store : List Record) (flags : Flags),
      (processPhase date mp jobs store flags).1.length = jobs.length := by
  induction jobs with
  | nil => intro store flags; rfl
  | cons j rest ih =>
    intro store flags
    rcases j with ⟨cat, ps, env⟩
    rw [processPhase_cons]
    simp [ih]

theorem with_semaphore_crash (cat : String) (ps : List Paper)
    (env : CatRunEnv) (date : String) (mp : Nat) (store : List Record)
    (flags : Flags) (h : env.crash = true) :
    (process_category_with_semaphore cat ps env date mp store flags).1 = [] := by
  unfold process_category_with_semaphore process_category
  simp [h]

theorem run_eq_flatten (date : String) (tasks : List CategoryTask) (mp : Nat)
    (store : List Record) (flags : Flags) :
    (run_arxiv_summarizer_async date tasks mp store flags).1 =
      ((processPhase date mp (fetchPhase tasks flags).1 store
        (fetchPhase tasks flags).2).1).flatten := by
  unfold run_arxiv_summarizer_async
  rcases hf : fetchPhase tasks flags with ⟨jobs, flags1⟩
  by_cases hj : jobs.isEmpty
  · have hjn : jobs = [] := by simpa using hj
    subst hjn
    simp [processPhase_nil]
  · simp [hj]

/-- C5: the orchestrator run is a total function of the per-partition
outcomes (no partition failure propagates); its returned record list is
the concatenation of one result list per dispatched partition, and a
partition whose processor body raised contributes the empty list. -/
theorem c5_partition_failure_contained :
    (∀ (date : String) (tasks : List CategoryTask) (mp : Nat)
        (store : List Record) (flags : Flags),
      (run_arxiv_summarizer_async date tasks mp store flags).1 =
        ((processPhase date mp (fetchPhase tasks flags).1 store
          (fetchPhase tasks flags).2).1).flatten) ∧
    (∀ (date : String) (mp : Nat)
        (jobs : List (String × List Paper × CatRunEnv))
        (store : List Record) (flags : Flags),
      (processPhase date mp jobs store flags).1.length = jobs.length) ∧
    (∀ (cat : String) (ps : List Paper) (env : CatRunEnv) (date : String)
        (mp : Nat) (store : List Record) (flags : Flags),
      env.crash = true →
      (process_category_with_semaphore cat ps env date mp store flags).1 = []) :=
  ⟨run_eq_flatten,
   fun date mp jobs store flags => processPhase_length date mp jobs store flags,
   fun cat ps env date mp store flags h =>
     with_semaphore_crash cat ps env date mp store flags h⟩

theorem c5_witness :
    (process_category_with_semaphore "cs.LG" []
      ⟨none, fun _ => ItemOutcome.raised, true⟩ "2026-10-12" 1 []
      (fun _ => false)).1 = [] :=
  c5_partition_failure_contained.2.2 "cs.LG" []
    ⟨none, fun _ => ItemOutcome.raised, true⟩ "2026-10-12" 1 []
    (fun _ => false) rfl

/-! ### Store uniqueness lemmas for C6 -/

theorem process_category_store_cases (cat : String) (papers : List Paper)
    (env : CatRunEnv) (date : String) (mp : Nat) (store : List Record)
    (flags : Flags) :
    (process_category cat papers env date mp store flags).2.1 = store ∨
    ∃ sel, (process_category cat papers env date mp store flags).2.1 =
      (runWorkers cat (get_category_name cat)
        (slugify (get_category_name cat)) date env.outcome store sel).2 := by
  by_cases hc : env.crash
  · left; simp [process_category, hc]
  · by_cases hp : papers.isEmpty
    · left; simp [process_category, hc, hp]
    · by_cases hn : (newPapersOf store papers).isEmpty
      · left; simp [process_category, hc, hp, hn]
      · right
        refine ⟨scorePapersByTitle (newPapersOf store papers) mp
          env.oracleResp, ?_⟩
        simp only [process_category, hc, hp, hn]
        rcases hrw : runWorkers cat (get_category_name cat)
            (slugify (get_category_name cat)) date env.outcome store
            (scorePapersByTitle (newPapersOf store papers) mp env.oracleResp)
          with ⟨res, st2⟩
        simp [hrw]

theorem process_category_store_nodup (cat : String) (papers : List Paper)
    (env : CatRunEnv) (date : String) (mp : Nat) (store : List Record)
    (flags : Flags) (h : (storeIds store).Nodup) :
    (storeIds (process_category cat papers env date mp store flags).2.1).Nodup := by
  rcases process_category_store_cases cat papers env date mp store flags with
    h2 | ⟨sel, h2⟩
  · rw [h2]; exact h
  · rw [h2]
    exact runWorkers_store_nodup cat (get_category_name cat)
      (slugify (get_category_name cat)) date env.outcome sel store h

theorem foldl_applyRun_nodup (runs : List RunInput) :
    ∀ store : List Record, (storeIds store).Nodup →
      (storeIds (runs.foldl applyRun store)).Nodup := by
  induction runs with
  | nil => intro store h; exact h
  | cons rn rest ih =>
    intro store h
    rw [List.foldl_cons]
    exact ih _ (process_category_store_nodup rn.category rn.papers rn.env
      rn.date rn.maxPapers store (fun _ => false) h)

theorem newPapersOf_not_stored (store : List Record) (papers : List Paper)
    (p : Paper) (h : p ∈ newPapersOf store papers) :
    p.entry_id.getD "" ∉ existingIds store := by
  have h2 := List.of_mem_filter h
  simp only [Bool.and_eq_true, Bool.not_eq_true', decide_eq_false_iff_not] at h2
  exact h2.2

/-- C6: iterating any number of partition processor runs against a
store whose arxiv_ids are pairwise distinct keeps them pairwise
distinct (persistence is an upsert keyed by arxiv_id and an existing id
keeps the store size unchanged rather than inserting a duplicate), and
every paper surviving the dedup filter, which is exactly the list
handed to the ranking oracle and the enrichment workers, has an
entry_id that is not among the stored ids. -/
theorem c6_identity_uniqueness :
    (∀ (runs : List RunInput) (store : List Record),
      (storeIds store).Nodup →
      (storeIds (runs.foldl applyRun store)).Nodup) ∧
    (∀ (store : List Record) (papers : List Paper) (p : Paper),
      p ∈ newPapersOf store papers →
      p.entry_id.getD "" ∉ existingIds store) ∧
    (∀ (store : List Record) (r : Record), r.arxiv_id ∈ storeIds store →
      (upsert store r).length = store.length) :=
  ⟨fun runs store h => foldl_applyRun_nodup runs store h,
   newPapersOf_not_stored, upsert_length_of_mem⟩

theorem c6_witness :
    ((⟨some "x", "t"⟩ : Paper).entry_id.getD "") ∉ existingIds [] :=
  c6_identity_uniqueness.2.1 [] [⟨some "x", "t"⟩] ⟨some "x", "t"⟩ (by decide)
